import Mathlib

/- Verification of the go-period library (package planner, src/period.go).

   Modelling conventions:
   * Go `int`, `int64` and `time.Duration` are modelled as unbounded `Int`;
     the one place the source names a platform bound
     (`1<<(strconv.IntSize-1) - 1`, with `strconv.IntSize = 64` on the
     reference platform) is the explicit constant `maxInt` below.
   * Go's `/` and `%` on integers truncate toward zero; they are modelled
     by `Int.tdiv` and `Int.tmod`.
   * Go's `norm` helper in `time.Date` normalizes a (hi, lo) pair so that
     `lo ∈ [0, base)`, i.e. floor division; for a positive divisor this is
     exactly `Int` `/` and `%` (Euclidean = floor for positive divisors),
     which is what the calendar definitions below use. -/

/-- Maximum value of Go's 64-bit `int`, i.e. `1<<(strconv.IntSize-1) - 1`. -/
def maxInt : Int := 9223372036854775807

/-- Truncating division expressed through Euclidean division, to make
`Int.tdiv` accessible to `omega`. -/
theorem tdiv_eq (a n : Int) (hn : 0 ≤ n) :
    a.tdiv n = if 0 ≤ a then a / n else -(-a / n) := by
  split
  case isTrue h => exact Int.tdiv_eq_ediv h hn
  case isFalse h =>
    have h2 : a.tdiv n = -((-a).tdiv n) := by rw [Int.neg_tdiv]; ring
    rw [h2, Int.tdiv_eq_ediv (by omega) hn]

/-- Truncating remainder expressed through Euclidean remainder. -/
theorem tmod_eq (a n : Int) (hn : 0 ≤ n) :
    a.tmod n = if 0 ≤ a then a % n else -(-a % n) := by
  have h1 := Int.tmod_add_tdiv a n
  rw [tdiv_eq a n hn] at h1
  split at h1
  case isTrue h =>
    rw [if_pos h]
    have h2 := Int.emod_add_ediv a n
    omega
  case isFalse h =>
    rw [if_neg h]
    rw [mul_neg] at h1
    have h3 := Int.emod_add_ediv (-a) n
    omega

/-- Negation moves through truncating remainder. -/
theorem neg_tmod (a n : Int) : (-a).tmod n = -(a.tmod n) := by
  rw [Int.tmod_def, Int.tmod_def, Int.neg_tdiv]
  ring

/-- Truncating remainder by a positive modulus is strictly bounded. -/
theorem tmod_bounds (a n : Int) (hn : 0 < n) : -n < a.tmod n ∧ a.tmod n < n := by
  have h := tmod_eq a n (by omega)
  have h1 := Int.emod_nonneg a (by omega : n ≠ 0)
  have h2 := Int.emod_lt_of_pos a hn
  have h3 := Int.emod_nonneg (-a) (by omega : n ≠ 0)
  have h4 := Int.emod_lt_of_pos (-a) hn
  split at h <;> omega

/-- Truncating remainder fixes values already in the open interval. -/
theorem tmod_small (a n : Int) (h1 : -n < a) (h2 : a < n) : a.tmod n = a := by
  have h := tmod_eq a n (by omega)
  have h3 := Int.emod_emod_of_dvd a (dvd_refl n)
  rcases le_or_lt 0 a with ha | ha
  · rw [h, if_pos ha, Int.emod_eq_of_lt ha h2]
  · rw [h, if_neg (by omega), Int.emod_eq_of_lt (by omega) (by omega)]
    ring

/-- Truncating division of a small value is zero. -/
theorem tdiv_small (a n : Int) (h1 : -n < a) (h2 : a < n) : a.tdiv n = 0 := by
  have h := Int.tmod_add_tdiv a n
  rw [tmod_small a n h1 h2] at h
  rcases eq_or_ne n 0 with rfl | hn
  · simp
  · have : n * a.tdiv n = 0 := by omega
    rcases mul_eq_zero.mp this with h' | h'
    · omega
    · exact h'

/-- Sign of truncating division and remainder follows the dividend. -/
theorem tdiv_tmod_sign (a n : Int) (hn : 0 < n) :
    (0 ≤ a → 0 ≤ a.tdiv n ∧ 0 ≤ a.tmod n) ∧
      (a ≤ 0 → a.tdiv n ≤ 0 ∧ a.tmod n ≤ 0) := by
  have h := tdiv_eq a n (by omega)
  have h' := tmod_eq a n (by omega)
  have h1 := Int.emod_nonneg a (by omega : n ≠ 0)
  have h2 := Int.emod_nonneg (-a) (by omega : n ≠ 0)
  have h3 := Int.ediv_nonneg (a := a) (b := n)
  have h4 := Int.ediv_nonneg (a := -a) (b := n)
  constructor
  · intro ha
    rw [h, if_pos ha, h', if_pos ha]
    exact ⟨h3 ha (by omega), h1⟩
  · intro ha
    rcases eq_or_lt_of_le ha with rfl | ha'
    · simp
    · rw [h, if_neg (by omega), h', if_neg (by omega)]
      constructor
      · have := h4 (by omega) (by omega)
        omega
      · omega

/-- Period ISO-8601 value type (src/period.go lines 23-31): seven signed
integer magnitudes, no internal invariant. -/
structure Period where
  Years : Int := 0
  Months : Int := 0
  Weeks : Int := 0
  Days : Int := 0
  Hours : Int := 0
  Minutes : Int := 0
  Seconds : Int := 0
deriving DecidableEq, Repr

/-- Field-wise negation of a Period; used to state antisymmetry of `Between`
and oddness of `Normalize`. -/
def Period.neg (p : Period) : Period :=
  ⟨-p.Years, -p.Months, -p.Weeks, -p.Days, -p.Hours, -p.Minutes, -p.Seconds⟩

/-- Period.HasDatePart (src/period.go lines 193-195). -/
def Period.HasDatePart (p : Period) : Bool :=
  p.Years ≠ 0 || p.Months ≠ 0 || p.Weeks ≠ 0 || p.Days ≠ 0

/-- Period.HasTimePart (src/period.go lines 198-200). -/
def Period.HasTimePart (p : Period) : Bool :=
  p.Hours ≠ 0 || p.Minutes ≠ 0 || p.Seconds ≠ 0

/-- Period.Normalize (src/period.go lines 203-222).  Go's `/` and `%` on
`int` truncate toward zero, hence `Int.tdiv` / `Int.tmod`. -/
def Period.Normalize (p : Period) : Period :=
  let seconds := p.Seconds.tmod 60
  let minutes := p.Seconds.tdiv 60 + p.Minutes
  let minutes' := minutes.tmod 60
  let hours := minutes.tdiv 60 + p.Hours
  let hours' := hours.tmod 24
  let days := hours.tdiv 24 + p.Days + p.Weeks * 7
  let months := p.Months.tmod 12
  let years := p.Months.tdiv 12 + p.Years
  ⟨years, months, 0, days, hours', minutes', seconds⟩

/-- Applying the same truncating remainder twice changes nothing. -/
theorem tmod_tmod_self (x n : Int) (hn : 0 < n) : (x.tmod n).tmod n = x.tmod n := by
  have h := tmod_bounds x n hn
  exact tmod_small _ n (by omega) (by omega)

/-- Truncating division of a truncating remainder by the same modulus is 0. -/
theorem tmod_tdiv_self (x n : Int) (hn : 0 < n) : (x.tmod n).tdiv n = 0 := by
  have h := tmod_bounds x n hn
  exact tdiv_small _ n (by omega) (by omega)

/-- C4.  Normalize is idempotent on every Period, any signs included. -/
theorem normalize_idempotent (p : Period) : p.Normalize.Normalize = p.Normalize := by
  have e1 := tmod_tmod_self p.Seconds 60 (by norm_num)
  have e2 := tmod_tdiv_self p.Seconds 60 (by norm_num)
  have e3 := tmod_tmod_self (p.Seconds.tdiv 60 + p.Minutes) 60 (by norm_num)
  have e4 := tmod_tdiv_self (p.Seconds.tdiv 60 + p.Minutes) 60 (by norm_num)
  have e5 := tmod_tmod_self ((p.Seconds.tdiv 60 + p.Minutes).tdiv 60 + p.Hours) 24 (by norm_num)
  have e6 := tmod_tdiv_self ((p.Seconds.tdiv 60 + p.Minutes).tdiv 60 + p.Hours) 24 (by norm_num)
  have e7 := tmod_tmod_self p.Months 12 (by norm_num)
  have e8 := tmod_tdiv_self p.Months 12 (by norm_num)
  simp only [Period.Normalize, Period.mk.injEq, e1, e2, e3, e4, e5, e6, e7, e8,
    zero_add, add_zero, zero_mul, mul_zero, and_self]

/-- C10.  Normalize is odd: it commutes with field-wise negation, because
every quotient and remainder in it truncates toward zero. -/
theorem normalize_neg (p : Period) : p.neg.Normalize = p.Normalize.neg := by
  simp only [Period.Normalize, Period.neg, Period.mk.injEq, Int.neg_tdiv, neg_tmod,
    neg_mul, ← neg_add, neg_zero, and_self]

/-- C3.  On a Period with all seven fields non-negative, Normalize yields
bounded seconds/minutes/hours/months, zero weeks, and non-negative years
and days; and the spec's concrete example normalizes as stated. -/
theorem normalize_nonneg_bounds (p : Period)
    (hY : 0 ≤ p.Years) (hMo : 0 ≤ p.Months) (hW : 0 ≤ p.Weeks) (hD : 0 ≤ p.Days)
    (hH : 0 ≤ p.Hours) (hMi : 0 ≤ p.Minutes) (hS : 0 ≤ p.Seconds) :
    (0 ≤ p.Normalize.Seconds ∧ p.Normalize.Seconds < 60) ∧
      (0 ≤ p.Normalize.Minutes ∧ p.Normalize.Minutes < 60) ∧
      (0 ≤ p.Normalize.Hours ∧ p.Normalize.Hours < 24) ∧
      (0 ≤ p.Normalize.Months ∧ p.Normalize.Months < 12) ∧
      p.Normalize.Weeks = 0 ∧ 0 ≤ p.Normalize.Years ∧ 0 ≤ p.Normalize.Days ∧
      Period.Normalize ⟨1, 15, 2, 31, 27, 73, 91⟩ = ⟨2, 3, 0, 46, 4, 14, 31⟩ := by
  have b60 := tmod_bounds p.Seconds 60 (by norm_num)
  have s1 := tdiv_tmod_sign p.Seconds 60 (by norm_num)
  have b60' := tmod_bounds (p.Seconds.tdiv 60 + p.Minutes) 60 (by norm_num)
  have s2 := tdiv_tmod_sign (p.Seconds.tdiv 60 + p.Minutes) 60 (by norm_num)
  have b24 := tmod_bounds ((p.Seconds.tdiv 60 + p.Minutes).tdiv 60 + p.Hours) 24 (by norm_num)
  have s3 := tdiv_tmod_sign ((p.Seconds.tdiv 60 + p.Minutes).tdiv 60 + p.Hours) 24 (by norm_num)
  have b12 := tmod_bounds p.Months 12 (by norm_num)
  have s4 := tdiv_tmod_sign p.Months 12 (by norm_num)
  refine ⟨?_, ?_, ?_, ?_, ?_, ?_, ?_, by decide⟩ <;>
    simp only [Period.Normalize] <;> omega

/-- C3 witness: the bounds instantiated at the spec's concrete example. -/
theorem normalize_nonneg_bounds_witness :
    (0 ≤ (Period.Normalize ⟨1, 15, 2, 31, 27, 73, 91⟩).Seconds ∧
      (Period.Normalize ⟨1, 15, 2, 31, 27, 73, 91⟩).Seconds < 60) ∧
      (0 ≤ (Period.Normalize ⟨1, 15, 2, 31, 27, 73, 91⟩).Minutes ∧
        (Period.Normalize ⟨1, 15, 2, 31, 27, 73, 91⟩).Minutes < 60) ∧
      (0 ≤ (Period.Normalize ⟨1, 15, 2, 31, 27, 73, 91⟩).Hours ∧
        (Period.Normalize ⟨1, 15, 2, 31, 27, 73, 91⟩).Hours < 24) ∧
      (0 ≤ (Period.Normalize ⟨1, 15, 2, 31, 27, 73, 91⟩).Months ∧
        (Period.Normalize ⟨1, 15, 2, 31, 27, 73, 91⟩).Months < 12) ∧
      (Period.Normalize ⟨1, 15, 2, 31, 27, 73, 91⟩).Weeks = 0 ∧
      0 ≤ (Period.Normalize ⟨1, 15, 2, 31, 27, 73, 91⟩).Years ∧
      0 ≤ (Period.Normalize ⟨1, 15, 2, 31, 27, 73, 91⟩).Days ∧
      Period.Normalize ⟨1, 15, 2, 31, 27, 73, 91⟩ = ⟨2, 3, 0, 46, 4, 14, 31⟩ :=
  normalize_nonneg_bounds ⟨1, 15, 2, 31, 27, 73, 91⟩ (by norm_num) (by norm_num)
    (by norm_num) (by norm_num) (by norm_num) (by norm_num) (by norm_num)

/-- First borrow/carry step in Between (src/period.go lines 94-100):
seconds against minutes.  The second branch subtracts 24 — not 60 — before
incrementing minutes, exactly as the source does. -/
def borrowSecMin (minutes seconds : Int) : Int × Int :=
  if 0 < minutes ∧ seconds < 0 then (minutes - 1, seconds + 60)
  else if minutes < 0 ∧ 0 < seconds then (minutes + 1, seconds - 24)
  else (minutes, seconds)

/-- Second borrow/carry step in Between (src/period.go lines 102-108):
minutes against hours, base 60. -/
def borrowMinHour (hours minutes : Int) : Int × Int :=
  if 0 < hours ∧ minutes < 0 then (hours - 1, minutes + 60)
  else if hours < 0 ∧ 0 < minutes then (hours + 1, minutes - 60)
  else (hours, minutes)

/-- Third borrow/carry step in Between (src/period.go lines 110-116):
hours against days, base 24. -/
def borrowHourDay (days hours : Int) : Int × Int :=
  if 0 < days ∧ hours < 0 then (days - 1, hours + 24)
  else if days < 0 ∧ 0 < hours then (days + 1, hours - 24)
  else (days, hours)

/-- Fourth borrow/carry step in Between (src/period.go lines 118-124):
months against years, base 12. -/
def borrowMonthYear (years months : Int) : Int × Int :=
  if 0 < years ∧ months < 0 then (years - 1, months + 12)
  else if years < 0 ∧ 0 < months then (years + 1, months - 12)
  else (years, months)

/-- Full borrow/carry pass of Between (src/period.go lines 94-126),
assembling the resulting Period with Weeks = 0. -/
def borrowCarry (years months days hours minutes seconds : Int) : Period :=
  let ms := borrowSecMin minutes seconds
  let hm := borrowMinHour hours ms.1
  let dh := borrowHourDay days hm.1
  let ym := borrowMonthYear years months
  ⟨ym.1, ym.2, 0, dh.1, dh.2, hm.2, ms.2⟩

/-- C2.  In Between's borrow/carry pass, the "negative minutes, positive
seconds" branch subtracts exactly 24 from seconds and increments minutes;
the opposite branch adds 60 to seconds and decrements minutes. -/
theorem borrow_sec_min_branches (minutes seconds : Int) :
    (minutes < 0 → 0 < seconds →
      borrowSecMin minutes seconds = (minutes + 1, seconds - 24)) ∧
    (0 < minutes → seconds < 0 →
      borrowSecMin minutes seconds = (minutes - 1, seconds + 60)) := by
  constructor <;> intro h1 h2 <;> simp only [borrowSecMin] <;>
    split_ifs with ha hb <;> first | rfl | omega

/-- C2 witness: both branches evaluated at concrete mixed-sign inputs. -/
theorem borrow_sec_min_branches_witness :
    borrowSecMin (-5) 10 = (-4, -14) ∧ borrowSecMin 5 (-10) = (4, 50) :=
  ⟨(borrow_sec_min_branches (-5) 10).1 (by norm_num) (by norm_num),
    (borrow_sec_min_branches 5 (-10)).2 (by norm_num) (by norm_num)⟩

/-- Error kinds of the library (src/period.go lines 18-19), plus the
distinct error that `strconv.Atoi` returns on out-of-range numerals and
that FromString surfaces unchanged (src/period.go lines 166-169). -/
inductive PErr where
  | overflow
  | badFormat
  | rangeErr
deriving DecidableEq, Repr

/-- FromDuration (src/period.go lines 130-139).  The duration argument is
in nanoseconds (Go `time.Duration`); `duration / time.Second` is Go int64
division, i.e. truncation; `maxSeconds` is `1<<(strconv.IntSize-1) - 1`. -/
def FromDuration (duration : Int) : Except PErr Period :=
  let seconds := duration.tdiv 1000000000
  if maxInt < seconds then .error .overflow
  else .ok (Period.Normalize {Seconds := seconds})

/-- C6.  FromDuration truncates to whole seconds, fails with Overflow
exactly when the second count exceeds the platform integer maximum, and
otherwise returns the normalized second count; the spec's concrete
27h+74m+63s example holds. -/
theorem fromDuration_spec (d : Int) :
    (FromDuration d = .error .overflow ↔ maxInt < d.tdiv 1000000000) ∧
      (d.tdiv 1000000000 ≤ maxInt →
        FromDuration d = .ok (Period.Normalize ⟨0, 0, 0, 0, 0, 0, d.tdiv 1000000000⟩)) ∧
      FromDuration 101703000000000 = .ok ⟨0, 0, 0, 1, 4, 15, 3⟩ := by
  refine ⟨?_, ?_, by rfl⟩
  · simp only [FromDuration]
    split
    case isTrue h => simpa using h
    case isFalse h => simp only [reduceCtorEq, false_iff]; omega
  · intro h
    simp only [FromDuration]
    rw [if_neg (by omega)]

/-- C6 witness: the concrete example obtained through the theorem. -/
theorem fromDuration_spec_witness :
    FromDuration 101703000000000 =
      .ok (Period.Normalize ⟨0, 0, 0, 0, 0, 0, 101703⟩) :=
  (fromDuration_spec 101703000000000).2.1 (by decide)

/-- Year-of-era extraction from a day-of-era, by 100/4/1-year cycle
splitting exactly as Go's time package `absDate` does (with `n -= n >> 2`
capping the cycle counts); day-of-era 0 is March 1 of an era's first year,
so the leap day is always the last day of a year-of-era. -/
def yoeOfDoe (doe : Int) : Int :=
  let n1 := doe / 36524
  let c := n1 - n1 / 4
  let d1 := doe - 36524 * c
  let q := d1 / 1461
  let d2 := d1 - 1461 * q
  let n3 := d2 / 365
  let yy := n3 - n3 / 4
  100 * c + 4 * q + yy

theorem yoe_spec_aux (doe n1 c d1 q d2 n3 yy : Int)
    (h0 : 0 ≤ doe) (h1 : doe ≤ 146096)
    (e1 : n1 = doe / 36524) (e2 : c = n1 - n1 / 4) (e3 : d1 = doe - 36524 * c)
    (e4 : q = d1 / 1461) (e5 : d2 = d1 - 1461 * q) (e6 : n3 = d2 / 365)
    (e7 : yy = n3 - n3 / 4) :
    0 ≤ 100 * c + 4 * q + yy ∧ 100 * c + 4 * q + yy ≤ 399 ∧
      365 * (100 * c + 4 * q + yy) + (100 * c + 4 * q + yy) / 4 -
        (100 * c + 4 * q + yy) / 100 ≤ doe ∧
      doe - (365 * (100 * c + 4 * q + yy) + (100 * c + 4 * q + yy) / 4 -
        (100 * c + 4 * q + yy) / 100) ≤ 365 := by
  have hn1 : 0 ≤ n1 ∧ n1 ≤ 4 := by omega
  have hc : 0 ≤ c ∧ c ≤ 3 := by omega
  have hd1 : 0 ≤ d1 ∧ d1 ≤ 36524 := by omega
  have hq : 0 ≤ q ∧ q ≤ 24 := by omega
  have hd2 : 0 ≤ d2 ∧ d2 ≤ 1460 := by omega
  have hyy : 0 ≤ yy ∧ yy ≤ 3 := by omega
  have hd3 : 0 ≤ d2 - 365 * yy ∧ d2 - 365 * yy ≤ 365 := by omega
  have h4 : (100 * c + 4 * q + yy) / 4 = 25 * c + q := by omega
  have h100 : (100 * c + 4 * q + yy) / 100 = c := by omega
  refine ⟨by omega, by omega, ?_, ?_⟩ <;> rw [h4, h100] <;> omega

/-- Bounds for `yoeOfDoe` on a single era, and bounds for the resulting
day-of-year. -/
theorem yoe_spec (doe : Int) (h0 : 0 ≤ doe) (h1 : doe ≤ 146096) :
    0 ≤ yoeOfDoe doe ∧ yoeOfDoe doe ≤ 399 ∧
      365 * yoeOfDoe doe + yoeOfDoe doe / 4 - yoeOfDoe doe / 100 ≤ doe ∧
      doe - (365 * yoeOfDoe doe + yoeOfDoe doe / 4 - yoeOfDoe doe / 100) ≤ 365 := by
  simp only [yoeOfDoe]
  exact yoe_spec_aux doe _ _ _ _ _ _ _ h0 h1 rfl rfl rfl rfl rfl rfl rfl

/-- Day number of a civil date in the proleptic Gregorian calendar: days
since the Unix epoch 1970-01-01.  Needs 1 ≤ m ≤ 12; the day component may
be any integer, matching Go's `time.Date`, which adds `day - 1` without
normalizing it.  400-year eras of 146097 days; months are counted from
March so the leap day is the last day of a year. -/
def daysFromCivil (y m d : Int) : Int :=
  let y' := if m ≤ 2 then y - 1 else y
  let era := y' / 400
  let yoe := y' - 400 * era
  let mp := if 2 < m then m - 3 else m + 9
  let doy := (153 * mp + 2) / 5 + d - 1
  let doe := 365 * yoe + yoe / 4 - yoe / 100 + doy
  146097 * era + doe - 719468

/-- Civil date (year, month, day) of a day number, inverse of
`daysFromCivil`; the decomposition Go's `absDate` performs. -/
def civilFromDays (z : Int) : Int × Int × Int :=
  let z' := z + 719468
  let era := z' / 146097
  let doe := z' - 146097 * era
  let yoe := yoeOfDoe doe
  let doy := doe - (365 * yoe + yoe / 4 - yoe / 100)
  let mp := (5 * doy + 2) / 153
  let d := doy - (153 * mp + 2) / 5 + 1
  let m := if mp < 10 then mp + 3 else mp - 9
  let y := yoe + 400 * era
  (if m ≤ 2 then y + 1 else y, m, d)

theorem civil_roundTrip_aux (z era doe yoe doy mp d m y : Int)
    (he : era = (z + 719468) / 146097)
    (hd : doe = z + 719468 - 146097 * era)
    (hyoe0 : 0 ≤ yoe) (hyoe1 : yoe ≤ 399)
    (hdys : 365 * yoe + yoe / 4 - yoe / 100 ≤ doe)
    (hdoy365 : doe - (365 * yoe + yoe / 4 - yoe / 100) ≤ 365)
    (hdoy : doy = doe - (365 * yoe + yoe / 4 - yoe / 100))
    (hmp : mp = (5 * doy + 2) / 153)
    (hdd : d = doy - (153 * mp + 2) / 5 + 1)
    (hm : (mp < 10 ∧ m = mp + 3) ∨ (10 ≤ mp ∧ m = mp - 9))
    (hy : y = yoe + 400 * era) :
    daysFromCivil (if m ≤ 2 then y + 1 else y) m d = z ∧ 1 ≤ m ∧ m ≤ 12 := by
  subst hy
  have hmp_range : 0 ≤ mp ∧ mp ≤ 11 := by omega
  have h400 : (yoe + 400 * era) / 400 = era := by omega
  have hnum : yoe + 400 * era - 400 * ((yoe + 400 * era) / 400) = yoe := by omega
  have hi4 : (yoe + 400 * era - 400 * ((yoe + 400 * era) / 400)) / 4 = yoe / 4 := by
    rw [hnum]
  have hi100 : (yoe + 400 * era - 400 * ((yoe + 400 * era) / 400)) / 100 = yoe / 100 := by
    rw [hnum]
  rcases hm with ⟨hlt, rfl⟩ | ⟨hge, rfl⟩ <;> simp only [daysFromCivil] <;>
    split_ifs <;> (try simp only [add_sub_cancel_right, sub_add_cancel]) <;> omega

/-- Round trip: reconstructing the day number from the civil decomposition
gives the day number back, and the month lands in 1..12. -/
theorem civil_roundTrip (z : Int) :
    daysFromCivil (civilFromDays z).1 (civilFromDays z).2.1 (civilFromDays z).2.2 = z ∧
      1 ≤ (civilFromDays z).2.1 ∧ (civilFromDays z).2.1 ≤ 12 := by
  have hdoe : 0 ≤ z + 719468 - 146097 * ((z + 719468) / 146097) ∧
      z + 719468 - 146097 * ((z + 719468) / 146097) ≤ 146096 := by omega
  have hy := yoe_spec _ hdoe.1 hdoe.2
  simp only [civilFromDays]
  refine civil_roundTrip_aux z _ _ _ _ _ _ _ _ rfl rfl hy.1 hy.2.1 hy.2.2.1 hy.2.2.2
    rfl rfl rfl ?_ rfl
  by_cases hc : (5 * (z + 719468 - 146097 * ((z + 719468) / 146097) -
      (365 * yoeOfDoe (z + 719468 - 146097 * ((z + 719468) / 146097)) +
        yoeOfDoe (z + 719468 - 146097 * ((z + 719468) / 146097)) / 4 -
        yoeOfDoe (z + 719468 - 146097 * ((z + 719468) / 146097)) / 100)) + 2) / 153 < 10
  · exact Or.inl ⟨hc, if_pos hc⟩
  · exact Or.inr ⟨by omega, if_neg hc⟩

/-- Absolute instant, as Go's time.Time stores it: whole seconds since the
Unix epoch plus a nanosecond part (in [0, 1e9) for every value the library
constructs).  Equality of Timestamps is Go's `Time.Equal`, which compares
instants and ignores the location. -/
structure Timestamp where
  sec : Int
  nsec : Int
deriving DecidableEq, Repr

/-- Instant in nanoseconds. -/
def Timestamp.toNs (t : Timestamp) : Int := t.sec * 1000000000 + t.nsec

/-- Go's `t.Sub(u)` in nanoseconds (the int64 saturation on astronomically
distant operands is out of the modelled range). -/
def Timestamp.sub (t u : Timestamp) : Int := t.toNs - u.toNs

/-- Go's `Time.Add`: the duration is split with int64 division (truncation)
and the nanosecond field is re-normalized, exactly as in the time package. -/
def Timestamp.add (t : Timestamp) (d : Int) : Timestamp :=
  let sec := t.sec + d.tdiv 1000000000
  let nsec := t.nsec + d.tmod 1000000000
  if 1000000000 ≤ nsec then ⟨sec + 1, nsec - 1000000000⟩
  else if nsec < 0 then ⟨sec - 1, nsec + 1000000000⟩
  else ⟨sec, nsec⟩

/-- Time zone: an initial UTC offset (seconds) plus a sorted list of
(transition instant in Unix seconds, new offset) pairs — the shape of the
IANA data Go's time.Location serves through `lookup`. -/
structure Location where
  initOffset : Int
  trans : List (Int × Int)
deriving DecidableEq, Repr

/-- Sentinel for the start of time, Go's `alpha = -1 << 63`. -/
def alphaSent : Int := -9223372036854775808

/-- Sentinel for the end of time, Go's `omega = 1<<63 - 1`. -/
def omegaSent : Int := 9223372036854775807

def lookupAux (off start : Int) (ts : List (Int × Int)) (sec : Int) :
    Int × Int × Int :=
  match ts with
  | [] => (off, start, omegaSent)
  | (t, o) :: rest => if sec < t then (off, start, t) else lookupAux o t rest sec

/-- Go's `Location.lookup`: the offset in effect at a Unix second, together
with the start and end of the zone interval containing it. -/
def Location.lookup (loc : Location) (sec : Int) : Int × Int × Int :=
  lookupAux loc.initOffset alphaSent loc.trans sec

/-- Fixed-offset location: no transitions, one offset forever. -/
def Location.fixed (o : Int) : Location := ⟨o, []⟩

/-- UTC. -/
def utcLoc : Location := Location.fixed 0

/-- Europe/Amsterdam around 2017, from the IANA data Go loads with
`time.LoadLocation`: CET (+1h) / CEST (+2h) with the 2016-10-30,
2017-03-26 and 2017-10-29 01:00 UTC transitions. -/
def amsterdam : Location :=
  ⟨7200, [(1477789200, 3600), (1490490000, 7200), (1509238800, 3600)]⟩

/-- Pseudo Unix second of civil fields interpreted as if UTC: the field
normalization chain of Go's `time.Date` (its `norm` calls, which are floor
division for the positive bases used), followed by the day count. -/
def goPseudo (year month day hour minute sec nsec : Int) : Int :=
  let sec1 := sec + nsec / 1000000000
  let minute1 := minute + sec1 / 60
  let sec2 := sec1 % 60
  let hour1 := hour + minute1 / 60
  let minute2 := minute1 % 60
  let day1 := day + hour1 / 24
  let hour2 := hour1 % 24
  let year1 := year + (month - 1) / 12
  let month1 := (month - 1) % 12 + 1
  daysFromCivil year1 month1 day1 * 86400 + hour2 * 3600 + minute2 * 60 + sec2

/-- Go's `time.Date`: build the pseudo Unix second, then resolve the zone
offset — look up the offset at the pseudo second, and if subtracting it
lands outside the zone interval found, look up again at the adjusted
second (the gap/fold handling of the time package). -/
def goDate (year month day hour minute sec nsec : Int) (loc : Location) :
    Timestamp :=
  let pseudo := goPseudo year month day hour minute sec nsec
  let l := loc.lookup pseudo
  let unix :=
    if l.1 = 0 then pseudo
    else
      if pseudo - l.1 < l.2.1 ∨ l.2.2 ≤ pseudo - l.1 then
        pseudo - (loc.lookup (pseudo - l.1)).1
      else pseudo - l.1
  ⟨unix, nsec % 1000000000⟩

/-- Local wall-clock second count of an instant in a zone. -/
def localSec (t : Timestamp) (loc : Location) : Int :=
  t.sec + (loc.lookup t.sec).1

/-- Go's `t.Date()` in a zone: civil year, month, day. -/
def dateOf (t : Timestamp) (loc : Location) : Int × Int × Int :=
  civilFromDays (localSec t loc / 86400)

/-- Go's `t.Clock()` in a zone: hour, minute, second of the local day. -/
def clockOf (t : Timestamp) (loc : Location) : Int × Int × Int :=
  let sod := localSec t loc % 86400
  (sod / 3600, sod % 3600 / 60, sod % 60)

/-- Between (src/period.go lines 72-127).  The argument `stop` is the
source's `end` (a reserved word here).  `start.In(loc)`/`end.In(loc)` only
change presentation, not the instant, so they are no-ops on Timestamps;
`start.Equal(end)` compares instants, which is Timestamp equality. -/
def Between (start stop : Timestamp) (loc : Location) : Period :=
  if start = stop then {} else
  let d1 := dateOf start loc
  let d2 := dateOf stop loc
  let years := d2.1 - d1.1
  let months := d2.2.1 - d1.2.1
  let days := d2.2.2 - d1.2.2
  let c := clockOf start loc
  let adjusted := goDate (d1.1 + years) (d1.2.1 + months) (d1.2.2 + days)
    c.1 c.2.1 c.2.2 0 loc
  let diff := stop.sub adjusted
  let hours := diff.tdiv 3600000000000
  let minutes := (diff.tmod 3600000000000).tdiv 60000000000
  let seconds := ((diff.tmod 3600000000000).tmod 60000000000).tdiv 1000000000
  borrowCarry years months days hours minutes seconds

/-- Period.Apply (src/period.go lines 225-234): calendar-field addition of
Years/Months/Days through time.Date, then elapsed-duration addition of
Hours/Minutes/Seconds.  Go reads the location off the timestamp; here it
is passed alongside. -/
def Period.Apply (p : Period) (t : Timestamp) (loc : Location) : Timestamp :=
  let d := dateOf t loc
  let c := clockOf t loc
  let dur := p.Hours * 3600000000000 + p.Minutes * 60000000000 +
    p.Seconds * 1000000000
  (goDate (d.1 + p.Years) (d.2.1 + p.Months) (d.2.2 + p.Days)
    c.1 c.2.1 c.2.2 t.nsec loc).add dur

/-- DaysInYear (src/period.go lines 45-51): whole 24-hour blocks between
Jan 1 of `year` and Jan 1 of `year + 1` in a zone; the division of the
duration is Go int64 division, i.e. truncation. -/
def DaysInYear (year : Int) (loc : Location) : Int :=
  let en := goDate (year + 1) 1 1 0 0 0 0 loc
  let st := goDate year 1 1 0 0 0 0 loc
  (en.sub st).tdiv 86400000000000

/-- Gregorian leap-year rule, as Go's `isLeap` writes it (`%` is Go
truncating remainder; for a zero test it agrees with any convention). -/
def isLeapYear (y : Int) : Bool :=
  y.tmod 4 = 0 && (y.tmod 100 ≠ 0 || y.tmod 400 = 0)

/-- In a fixed-offset zone, `time.Date` is the pseudo Unix second shifted
by the offset: the gap check either passes or re-looks up the same offset. -/
theorem goDate_fixed (y m d h mi s ns o : Int) :
    goDate y m d h mi s ns (Location.fixed o) =
      ⟨goPseudo y m d h mi s ns - o, ns % 1000000000⟩ := by
  simp only [goDate, Location.fixed, Location.lookup, lookupAux]
  split_ifs with h1 h2
  · subst h1; norm_num
  · rfl
  · rfl

/-- January 1 builds the plain day count: every clock component of
midnight normalizes to zero. -/
theorem goPseudo_jan1 (y : Int) :
    goPseudo y 1 1 0 0 0 0 = daysFromCivil y 1 1 * 86400 := by
  simp only [goPseudo]
  norm_num

/-- The leap-year predicate, unfolded to divisibility. -/
theorem isLeapYear_iff (y : Int) :
    isLeapYear y = true ↔ ((4:Int) ∣ y ∧ (¬((100:Int) ∣ y) ∨ (400:Int) ∣ y)) := by
  simp only [isLeapYear, Bool.and_eq_true, Bool.or_eq_true, decide_eq_true_eq,
    Int.dvd_iff_tmod_eq_zero]

/-- Length of a civil year in days, from the era decomposition. -/
theorem daysFromCivil_year_succ (y : Int) :
    daysFromCivil (y + 1) 1 1 - daysFromCivil y 1 1 =
      if ((4:Int) ∣ y ∧ (¬((100:Int) ∣ y) ∨ (400:Int) ∣ y)) then 366 else 365 := by
  simp only [daysFromCivil]
  norm_num
  split_ifs with hL <;> omega

/-- C9 (amended).  In a zone with one fixed offset and no transitions,
DaysInYear is 366 exactly on Gregorian leap years and 365 otherwise. -/
theorem daysInYear_fixed (year o : Int) :
    DaysInYear year (Location.fixed o) = (if isLeapYear year then 366 else 365) ∧
      (DaysInYear year (Location.fixed o) = 366 ↔ isLeapYear year = true) := by
  have hsucc := daysFromCivil_year_succ year
  have hmain : DaysInYear year (Location.fixed o) =
      daysFromCivil (year + 1) 1 1 - daysFromCivil year 1 1 := by
    simp only [DaysInYear, goDate_fixed, goPseudo_jan1, Timestamp.sub, Timestamp.toNs]
    have he : (daysFromCivil (year + 1) 1 1 * 86400 - o) * 1000000000 +
        (0:Int) % 1000000000 -
        ((daysFromCivil year 1 1 * 86400 - o) * 1000000000 + (0:Int) % 1000000000) =
        (daysFromCivil (year + 1) 1 1 - daysFromCivil year 1 1) * 86400000000000 := by
      ring_nf
    rw [he, Int.mul_tdiv_cancel _ (by norm_num)]
  constructor
  · rw [hmain, hsucc]
    by_cases hL : ((4:Int) ∣ year ∧ (¬((100:Int) ∣ year) ∨ (400:Int) ∣ year))
    · rw [if_pos hL, if_pos ((isLeapYear_iff year).mpr hL)]
    · rw [if_neg hL, if_neg (fun hB => hL ((isLeapYear_iff year).mp hB))]
  · rw [hmain, hsucc]
    by_cases hL : ((4:Int) ∣ year ∧ (¬((100:Int) ∣ year) ∨ (400:Int) ∣ year))
    · simp [if_pos hL, (isLeapYear_iff year).mpr hL]
    · rw [if_neg hL]
      simp only [show (365:Int) ≠ 366 by norm_num, false_iff]
      exact fun hB => hL ((isLeapYear_iff year).mp hB)

/-- C9 counterexample.  In a zone whose base offset jumps by a day
mid-year (the shape of Pacific/Apia's 2011 calendar skip), the non-leap
year 2011 counts 364 days, not 365: the claim fails for that zone. -/
theorem daysInYear_trans_counterexample :
    DaysInYear 2011 ⟨0, [(1309046400, 86400)]⟩ = 364 ∧
      isLeapYear 2011 = false ∧ (364 : Int) ≠ 365 := by
  refine ⟨by rfl, by rfl, by norm_num⟩

/-- C7 counterexample.  Apply never reads the Weeks field (src/period.go
line 232 adds only `period.Days` to the day): applying a pure one-week
period leaves the timestamp unchanged instead of advancing it 7 days. -/
theorem apply_weeks_counterexample :
    Period.Apply ⟨0, 0, 1, 0, 0, 0, 0⟩ (goDate 2017 1 1 0 0 0 0 utcLoc) utcLoc =
      goDate 2017 1 1 0 0 0 0 utcLoc ∧
      goDate 2017 1 1 0 0 0 0 utcLoc ≠ goDate 2017 1 8 0 0 0 0 utcLoc := by
  exact ⟨by rfl, by decide⟩

/-- C7 (amended).  Apply adds Years, Months and Days (Weeks is ignored) to
the civil fields with ordinary rollover, preserving the wall clock, and
then adds Hours/Minutes/Seconds as elapsed time: the Jan 31 + 1 month
rollover example and the 36-hour span across the Amsterdam spring-forward
transition (landing on 13:00, not 12:00) both hold. -/
theorem apply_spec :
    (∀ (p : Period) (t : Timestamp) (loc : Location),
      p.Apply t loc =
        Period.Apply ⟨p.Years, p.Months, 0, p.Days, p.Hours, p.Minutes, p.Seconds⟩ t loc) ∧
      Period.Apply ⟨0, 1, 0, 0, 0, 0, 0⟩ (goDate 2017 1 31 13 45 20 0 utcLoc) utcLoc =
        goDate 2017 3 3 13 45 20 0 utcLoc ∧
      Period.Apply ⟨0, 0, 0, 0, 36, 0, 0⟩ (goDate 2017 3 26 0 0 0 0 amsterdam) amsterdam =
        goDate 2017 3 27 13 0 0 0 amsterdam := by
  exact ⟨fun p t loc => rfl, by rfl, by rfl⟩

/-- Lookup in a fixed-offset zone always yields the one offset with the
whole-time interval. -/
theorem lookup_fixed (o s : Int) :
    (Location.fixed o).lookup s = (o, alphaSent, omegaSent) := rfl

/-- The seconds-minutes step is the identity when the two do not have
strictly opposite signs. -/
theorem borrowSecMin_noop (mm ss : Int) (h1 : ¬(0 < mm ∧ ss < 0))
    (h2 : ¬(mm < 0 ∧ 0 < ss)) : borrowSecMin mm ss = (mm, ss) := by
  simp only [borrowSecMin]
  rw [if_neg h1, if_neg h2]

/-- The minutes-hours step is odd: its branches use the symmetric base 60. -/
theorem borrowMinHour_neg (hh mm : Int) :
    borrowMinHour (-hh) (-mm) =
      (-(borrowMinHour hh mm).1, -(borrowMinHour hh mm).2) := by
  simp only [borrowMinHour]
  split_ifs <;> simp_all [Prod.ext_iff] <;> omega

/-- The hours-days step is odd: its branches use the symmetric base 24. -/
theorem borrowHourDay_neg (dd hh : Int) :
    borrowHourDay (-dd) (-hh) =
      (-(borrowHourDay dd hh).1, -(borrowHourDay dd hh).2) := by
  simp only [borrowHourDay]
  split_ifs <;> simp_all [Prod.ext_iff] <;> omega

/-- The months-years step is odd: its branches use the symmetric base 12. -/
theorem borrowMonthYear_neg (yy mm : Int) :
    borrowMonthYear (-yy) (-mm) =
      (-(borrowMonthYear yy mm).1, -(borrowMonthYear yy mm).2) := by
  simp only [borrowMonthYear]
  split_ifs <;> simp_all [Prod.ext_iff] <;> omega

/-- The whole borrow/carry pass is odd whenever minutes and seconds do not
have strictly opposite signs (so the asymmetric `- 24` branch is not hit
in either run). -/
theorem borrowCarry_neg (ys ms ds hs mins ss : Int)
    (hsign : (0 ≤ mins ∧ 0 ≤ ss) ∨ (mins ≤ 0 ∧ ss ≤ 0)) :
    borrowCarry (-ys) (-ms) (-ds) (-hs) (-mins) (-ss) =
      (borrowCarry ys ms ds hs mins ss).neg := by
  have e1 : borrowSecMin mins ss = (mins, ss) := by
    rcases hsign with ⟨h1, h2⟩ | ⟨h1, h2⟩ <;>
      exact borrowSecMin_noop mins ss (by omega) (by omega)
  have e2 : borrowSecMin (-mins) (-ss) = (-mins, -ss) := by
    rcases hsign with ⟨h1, h2⟩ | ⟨h1, h2⟩ <;>
      exact borrowSecMin_noop (-mins) (-ss) (by omega) (by omega)
  have e3 := borrowMinHour_neg hs mins
  have e4 := borrowHourDay_neg ds (borrowMinHour hs mins).1
  have e5 := borrowMonthYear_neg ys ms
  simp only [borrowCarry, e1, e2, e3, e4, e5, Period.neg, neg_zero]

/-- Recomposing a second-of-day from its hour/minute/second split. -/
theorem sod_recompose (x : Int) :
    x / 3600 * 3600 + x % 3600 / 60 * 60 + x % 60 = x := by omega

/-- Feeding a civil decomposition and an in-range clock back into the
pseudo-second computation of `time.Date` reproduces the instant's local
seconds: every normalization step is the identity there. -/
theorem goPseudo_civil (db x : Int) (hx0 : 0 ≤ x) (hx1 : x < 86400) :
    goPseudo (civilFromDays db).1 (civilFromDays db).2.1 (civilFromDays db).2.2
      (x / 3600) (x % 3600 / 60) (x % 60) 0 = db * 86400 + x := by
  obtain ⟨hrt, hm1, hm2⟩ := civil_roundTrip db
  have c1 : (0:Int) / 1000000000 = 0 := by norm_num
  have c2 : x % 60 / 60 = 0 := by omega
  have c3 : x % 60 % 60 = x % 60 := by omega
  have c4 : x % 3600 / 60 / 60 = 0 := by omega
  have c5 : x % 3600 / 60 % 60 = x % 3600 / 60 := by omega
  have c6 : x / 3600 / 24 = 0 := by omega
  have c7 : x / 3600 % 24 = x / 3600 := by omega
  have c8 : ((civilFromDays db).2.1 - 1) / 12 = 0 := by omega
  have c9 : ((civilFromDays db).2.1 - 1) % 12 + 1 = (civilFromDays db).2.1 := by omega
  simp only [goPseudo, c1, add_zero, c2, c3, c4, c5, c6, c7, c8, c9, hrt]
  omega

/-- dateOf in a fixed-offset zone, unfolded. -/
theorem dateOf_fixed (t : Timestamp) (o : Int) :
    dateOf t (Location.fixed o) = civilFromDays ((t.sec + o) / 86400) := rfl

/-- clockOf in a fixed-offset zone, unfolded. -/
theorem clockOf_fixed (t : Timestamp) (o : Int) :
    clockOf t (Location.fixed o) =
      ((t.sec + o) % 86400 / 3600, (t.sec + o) % 86400 % 3600 / 60,
        (t.sec + o) % 86400 % 60) := rfl

/-- Between in a fixed-offset zone, on whole-second timestamps: the
adjusted timestamp shares the second timestamp's civil day, so the
sub-day remainder is the difference of the two seconds-of-day. -/
theorem between_fixed_diff (a b : Timestamp) (o D : Int) (hbn : b.nsec = 0)
    (hne : a ≠ b)
    (hD : D = ((b.sec + o) % 86400 - (a.sec + o) % 86400) * 1000000000) :
    Between a b (Location.fixed o) =
      borrowCarry
        ((civilFromDays ((b.sec + o) / 86400)).1 -
          (civilFromDays ((a.sec + o) / 86400)).1)
        ((civilFromDays ((b.sec + o) / 86400)).2.1 -
          (civilFromDays ((a.sec + o) / 86400)).2.1)
        ((civilFromDays ((b.sec + o) / 86400)).2.2 -
          (civilFromDays ((a.sec + o) / 86400)).2.2)
        (D.tdiv 3600000000000)
        ((D.tmod 3600000000000).tdiv 60000000000)
        (((D.tmod 3600000000000).tmod 60000000000).tdiv 1000000000) := by
  have hadd : ∀ x y : Int, x + (y - x) = y := fun x y => by ring
  have hx0 : 0 ≤ (a.sec + o) % 86400 := Int.emod_nonneg _ (by norm_num)
  have hx1 : (a.sec + o) % 86400 < 86400 := Int.emod_lt_of_pos _ (by norm_num)
  simp only [Between, if_neg hne, dateOf_fixed, clockOf_fixed, hadd]
  rw [goDate_fixed, goPseudo_civil _ _ hx0 hx1]
  simp only [Timestamp.sub, Timestamp.toNs, hbn]
  have hdec := Int.emod_add_ediv (b.sec + o) 86400
  have hE : b.sec * 1000000000 + 0 -
      (((b.sec + o) / 86400 * 86400 + (a.sec + o) % 86400 - o) * 1000000000 +
        (0:Int) % 1000000000) = D := by
    rw [hD]
    ring_nf
    omega
  rw [hE]

/-- Difference-shaped variant of `borrowCarry_neg`, oriented for the
antisymmetry proof. -/
theorem borrowCarry_neg_sub (y1 m1 d1 y2 m2 d2 H M S : Int)
    (hsign : (0 ≤ M ∧ 0 ≤ S) ∨ (M ≤ 0 ∧ S ≤ 0)) :
    borrowCarry (y2 - y1) (m2 - m1) (d2 - d1) H M S =
      (borrowCarry (y1 - y2) (m1 - m2) (d1 - d2) (-H) (-M) (-S)).neg := by
  have h := borrowCarry_neg (y1 - y2) (m1 - m2) (d1 - d2) (-H) (-M) (-S) (by omega)
  simp only [neg_sub, neg_neg] at h
  exact h

/-- C1 (amended).  In a fixed-offset zone, on timestamps with no sub-second
component, Between is antisymmetric: swapping the arguments negates every
field. -/
theorem between_antisym_fixed (o : Int) (a b : Timestamp)
    (han : a.nsec = 0) (hbn : b.nsec = 0) :
    Between a b (Location.fixed o) = (Between b a (Location.fixed o)).neg := by
  rcases eq_or_ne a b with rfl | hne
  · simp [Between, Period.neg]
  · have hne' : b ≠ a := hne.symm
    have h1 := between_fixed_diff a b o
      (((b.sec + o) % 86400 - (a.sec + o) % 86400) * 1000000000) hbn hne rfl
    have h2 := between_fixed_diff b a o
      (-(((b.sec + o) % 86400 - (a.sec + o) % 86400) * 1000000000)) han hne'
      (by ring)
    simp only [Int.neg_tdiv, neg_tmod] at h2
    rw [h1, h2]
    refine borrowCarry_neg_sub _ _ _ _ _ _ _ _ _ ?_
    rcases le_or_lt 0 (((b.sec + o) % 86400 - (a.sec + o) % 86400) * 1000000000)
      with hDp | hDn
    · left
      have t1 := ((tdiv_tmod_sign
        (((b.sec + o) % 86400 - (a.sec + o) % 86400) * 1000000000)
        3600000000000 (by norm_num)).1 hDp).2
      have t2 := (tdiv_tmod_sign
        ((((b.sec + o) % 86400 - (a.sec + o) % 86400) * 1000000000).tmod
          3600000000000) 60000000000 (by norm_num)).1 t1
      have t3 := (tdiv_tmod_sign
        (((((b.sec + o) % 86400 - (a.sec + o) % 86400) * 1000000000).tmod
          3600000000000).tmod 60000000000) 1000000000 (by norm_num)).1 t2.2
      exact ⟨t2.1, t3.1⟩
    · right
      have t1 := ((tdiv_tmod_sign
        (((b.sec + o) % 86400 - (a.sec + o) % 86400) * 1000000000)
        3600000000000 (by norm_num)).2 (by omega)).2
      have t2 := (tdiv_tmod_sign
        ((((b.sec + o) % 86400 - (a.sec + o) % 86400) * 1000000000).tmod
          3600000000000) 60000000000 (by norm_num)).2 t1
      have t3 := (tdiv_tmod_sign
        (((((b.sec + o) % 86400 - (a.sec + o) % 86400) * 1000000000).tmod
          3600000000000).tmod 60000000000) 1000000000 (by norm_num)).2 t2.2
      exact ⟨t2.1, t3.1⟩

/-- C1 witness: antisymmetry instantiated at two concrete whole-second
timestamps in a one-hour fixed-offset zone. -/
theorem between_antisym_fixed_witness :
    Between ⟨1483228800, 0⟩ ⟨1483229000, 0⟩ (Location.fixed 3600) =
      (Between ⟨1483229000, 0⟩ ⟨1483228800, 0⟩ (Location.fixed 3600)).neg :=
  between_antisym_fixed 3600 ⟨1483228800, 0⟩ ⟨1483229000, 0⟩ rfl rfl

/-- C1 counterexample.  With a sub-second component on one operand (in
UTC, a fixed zone, so DST plays no role), Between is not antisymmetric:
forward gives 2 seconds, backward gives -1 second, and 2 is not the
negation of -1. -/
theorem between_antisym_counterexample :
    Between ⟨1483228800, 700000000⟩ ⟨1483228802, 0⟩ utcLoc =
      ⟨0, 0, 0, 0, 0, 0, 2⟩ ∧
      Between ⟨1483228802, 0⟩ ⟨1483228800, 700000000⟩ utcLoc =
        ⟨0, 0, 0, 0, 0, 0, -1⟩ ∧
      (⟨0, 0, 0, 0, 0, 0, 2⟩ : Period) ≠
        (⟨0, 0, 0, 0, 0, 0, -1⟩ : Period).neg := by
  refine ⟨by decide, by decide, by decide⟩

/-- Decimal digit character. -/
def digitChar (d : Nat) : Char :=
  match d with
  | 0 => '0' | 1 => '1' | 2 => '2' | 3 => '3' | 4 => '4'
  | 5 => '5' | 6 => '6' | 7 => '7' | 8 => '8' | _ => '9'

/-- Decimal digits of a natural number, most significant first — what Go's
`%d` produces for non-negative ints. -/
def natChars (n : Nat) : List Char :=
  if _h : n < 10 then [digitChar n]
  else natChars (n / 10) ++ [digitChar (n % 10)]
decreasing_by omega

/-- Decimal rendering of a Go int, as the template's `{{.Years}}` prints. -/
def intChars (n : Int) : List Char :=
  if n < 0 then '-' :: natChars n.natAbs else natChars n.toNat

/-- Numeric value of a digit string, most significant first. -/
def digitsVal (ds : List Char) : Nat :=
  ds.foldl (fun a c => a * 10 + (c.toNat - 48)) 0

theorem digitChar_isDigit (d : Nat) : (digitChar d).isDigit = true := by
  simp only [digitChar]
  split <;> decide

theorem digitChar_toNat (d : Nat) (h : d < 10) : (digitChar d).toNat - 48 = d := by
  interval_cases d <;> decide

theorem natChars_ne_nil (n : Nat) : natChars n ≠ [] := by
  rw [natChars]
  split
  · simp
  · simp

theorem natChars_digits (n : Nat) : ∀ c ∈ natChars n, c.isDigit = true := by
  induction n using natChars.induct with
  | case1 n h =>
    rw [natChars, dif_pos h]
    intro c hc
    simp only [List.mem_singleton] at hc
    subst hc
    exact digitChar_isDigit n
  | case2 n h ih =>
    rw [natChars, dif_neg h]
    intro c hc
    rcases List.mem_append.mp hc with hc | hc
    · exact ih c hc
    · simp only [List.mem_singleton] at hc
      subst hc
      exact digitChar_isDigit _

theorem digitsVal_append_digit (ds : List Char) (c : Char) :
    digitsVal (ds ++ [c]) = digitsVal ds * 10 + (c.toNat - 48) := by
  simp [digitsVal, List.foldl_append]

theorem digitsVal_natChars (n : Nat) : digitsVal (natChars n) = n := by
  induction n using natChars.induct with
  | case1 n h =>
    rw [natChars, dif_pos h]
    simp [digitsVal, digitChar_toNat n h]
  | case2 n h ih =>
    rw [natChars, dif_neg h]
    rw [digitsVal_append_digit, ih, digitChar_toNat _ (by omega)]
    omega

/-- One optional `(\d+)X` component of the period pattern: take the maximal
digit run; if it is non-empty and the unit letter follows, consume both,
otherwise consume nothing — exactly how the anchored regex must split,
since every unit letter is a non-digit. -/
def parseComp (u : Char) (cs : List Char) : Option (List Char) × List Char :=
  let run := cs.takeWhile Char.isDigit
  match cs.dropWhile Char.isDigit with
  | c :: rest' => if c = u ∧ run ≠ [] then (some run, rest') else (none, cs)
  | [] => (none, cs)

/-- A non-empty all-digit string. -/
def DigitStr (ds : List Char) : Prop := ds ≠ [] ∧ ∀ c ∈ ds, c.isDigit = true

theorem takeWhile_digits_append (run : List Char) (c : Char) (rest : List Char)
    (hrun : ∀ x ∈ run, x.isDigit = true) (hc : ¬ c.isDigit = true) :
    (run ++ c :: rest).takeWhile Char.isDigit = run ∧
      (run ++ c :: rest).dropWhile Char.isDigit = c :: rest := by
  induction run with
  | nil =>
    simp only [List.nil_append, List.takeWhile_cons, List.dropWhile_cons, hc]
    simp
  | cons x xs ih =>
    have hx : x.isDigit = true := hrun x (by simp)
    have := ih (fun y hy => hrun y (by simp [hy]))
    simp only [List.cons_append, List.takeWhile_cons, List.dropWhile_cons, hx,
      if_pos hx, this.1, this.2]
    simp

/-- parseComp consumes a rendered component. -/
theorem parseComp_consume (u : Char) (run rest : List Char)
    (hrun : DigitStr run) (hu : ¬ u.isDigit = true) :
    parseComp u (run ++ u :: rest) = (some run, rest) := by
  obtain ⟨h1, h2⟩ := takeWhile_digits_append run u rest hrun.2 hu
  simp only [parseComp, h1, h2]
  simp [hrun.1]

/-- parseComp consumes nothing when the input starts with a non-digit. -/
theorem parseComp_skip_head (u c : Char) (rest : List Char)
    (hc : ¬ c.isDigit = true) : parseComp u (c :: rest) = (none, c :: rest) := by
  simp only [parseComp, List.takeWhile_cons, List.dropWhile_cons, hc]
  simp

/-- parseComp consumes nothing on the empty input. -/
theorem parseComp_skip_nil (u : Char) : parseComp u [] = (none, []) := rfl

/-- parseComp consumes nothing when the digit run is followed by a
different unit letter. -/
theorem parseComp_skip_other (u u' : Char) (run rest : List Char)
    (hrun : ∀ x ∈ run, x.isDigit = true) (hu' : ¬ u'.isDigit = true)
    (hne : u' ≠ u) :
    parseComp u (run ++ u' :: rest) = (none, run ++ u' :: rest) := by
  obtain ⟨h1, h2⟩ := takeWhile_digits_append run u' rest hrun hu'
  simp only [parseComp, h1, h2]
  rw [if_neg (by intro hand; exact hne hand.1)]

/-- General shape of a parseComp result: either a successful split with a
non-empty digit run followed by the unit letter, or no progress. -/
theorem parseComp_spec (u : Char) (cs : List Char) :
    (∃ run rest, parseComp u cs = (some run, rest) ∧ DigitStr run ∧
      cs = run ++ u :: rest) ∨ parseComp u cs = (none, cs) := by
  have hsplit := List.takeWhile_append_dropWhile (p := Char.isDigit) (l := cs)
  have hrun : ∀ x ∈ cs.takeWhile Char.isDigit, x.isDigit = true :=
    fun x hx => List.mem_takeWhile_imp hx
  rcases hd : cs.dropWhile Char.isDigit with _ | ⟨c, rest'⟩
  · right
    simp only [parseComp, hd]
  · by_cases hcond : c = u ∧ cs.takeWhile Char.isDigit ≠ []
    · left
      refine ⟨cs.takeWhile Char.isDigit, rest', ?_, ⟨hcond.2, hrun⟩, ?_⟩
      · simp only [parseComp, hd]
        rw [if_pos hcond]
      · conv_lhs => rw [← hsplit, hd]
        rw [hcond.1]
    · right
      simp only [parseComp, hd]
      rw [if_neg hcond]

/-- The submatches of `regexpPeriod` (src/period.go line 15): optional
digit runs for year, month, day, and — when the `T` separator is present —
hour, minute, second. -/
structure PParts where
  py : Option (List Char)
  pmo : Option (List Char)
  pd : Option (List Char)
  pt : Option (Option (List Char) × Option (List Char) × Option (List Char))
deriving DecidableEq, Repr

/-- Matching of `regexpWeek` `^P((?P<week>\d+)W)$` (src/period.go line 16):
the digit run when the whole string is P, digits, W. -/
def matchWeek (cs : List Char) : Option (List Char) :=
  match cs with
  | 'P' :: rest =>
    match parseComp 'W' rest with
    | (some run, []) => some run
    | _ => none
  | _ => none

/-- Matching of `regexpPeriod`
`^P((?P<year>\d+)Y)?((?P<month>\d+)M)?((?P<day>\d+)D)?(T((?P<hour>\d+)H)?((?P<minute>\d+)M)?((?P<second>\d+)S)?)?$`
(src/period.go line 15).  Each optional group is a maximal digit run
followed by its unit letter; the anchors force the rest to be empty. -/
def matchPeriod (cs : List Char) : Option PParts :=
  match cs with
  | 'P' :: rest =>
    let r1 := parseComp 'Y' rest
    let r2 := parseComp 'M' r1.2
    let r3 := parseComp 'D' r2.2
    match r3.2 with
    | [] => some ⟨r1.1, r2.1, r3.1, none⟩
    | 'T' :: rest2 =>
      let r4 := parseComp 'H' rest2
      let r5 := parseComp 'M' r4.2
      let r6 := parseComp 'S' r5.2
      match r6.2 with
      | [] => some ⟨r1.1, r2.1, r3.1, some (r4.1, r5.1, r6.1)⟩
      | _ => none
    | _ => none
  | _ => none

/-- Go's `strconv.Atoi` on a `\d+` submatch: the decimal value, or the
ErrRange error when it exceeds the 64-bit int maximum.  That error is not
`errPeriodBadFormat`; FromString returns it unchanged. -/
def atoi (ds : List Char) : Except PErr Int :=
  if (digitsVal ds : Int) ≤ maxInt then .ok (digitsVal ds) else .error .rangeErr

/-- An absent submatch is skipped by FromString's loop (the field keeps its
zero value); a present one goes through Atoi. -/
def optAtoi (p : Option (List Char)) : Except PErr Int :=
  match p with
  | none => .ok 0
  | some ds => atoi ds

/-- FromString (src/period.go lines 142-190): try the week pattern, then
the general pattern; no match is `errPeriodBadFormat`; matched groups are
converted in submatch order (year, month, day, hour, minute, second), and
an Atoi failure aborts with that error. -/
def FromString (cs : List Char) : Except PErr Period :=
  match matchWeek cs with
  | some run =>
    match atoi run with
    | .error e => .error e
    | .ok w => .ok ⟨0, 0, w, 0, 0, 0, 0⟩
  | none =>
    match matchPeriod cs with
    | none => .error .badFormat
    | some parts =>
      match optAtoi parts.py with
      | .error e => .error e
      | .ok y =>
        match optAtoi parts.pmo with
        | .error e => .error e
        | .ok mo =>
          match optAtoi parts.pd with
          | .error e => .error e
          | .ok d =>
            match optAtoi (match parts.pt with | none => none | some t => t.1) with
            | .error e => .error e
            | .ok h =>
              match optAtoi
                  (match parts.pt with | none => none | some t => t.2.1) with
              | .error e => .error e
              | .ok mi =>
                match optAtoi
                    (match parts.pt with | none => none | some t => t.2.2) with
                | .error e => .error e
                | .ok s => .ok ⟨y, mo, 0, d, h, mi, s⟩

/-- Text of one optional component: digits then the unit letter, or
nothing. -/
def optComp (u : Char) (p : Option (List Char)) : List Char :=
  match p with
  | none => []
  | some ds => ds ++ [u]

/-- Text of the optional time part: `T` followed by its components. -/
def tpartRender
    (t : Option (Option (List Char) × Option (List Char) × Option (List Char))) :
    List Char :=
  match t with
  | none => []
  | some t => 'T' :: (optComp 'H' t.1 ++ optComp 'M' t.2.1 ++ optComp 'S' t.2.2)

/-- Everything after the leading P. -/
def partsBody (parts : PParts) : List Char :=
  optComp 'Y' parts.py ++ optComp 'M' parts.pmo ++ optComp 'D' parts.pd ++
    tpartRender parts.pt

/-- The text denoted by a decomposition into submatches. -/
def renderParts (parts : PParts) : List Char := 'P' :: partsBody parts

/-- A present submatch must be a non-empty digit run. -/
def WFopt (p : Option (List Char)) : Prop := ∀ ds, p = some ds → DigitStr ds

/-- Well-formed submatches. -/
def WFParts (parts : PParts) : Prop :=
  WFopt parts.py ∧ WFopt parts.pmo ∧ WFopt parts.pd ∧
    (∀ t, parts.pt = some t → WFopt t.1 ∧ WFopt t.2.1 ∧ WFopt t.2.2)

/-- The language of `regexpPeriod`: texts denoted by some well-formed
decomposition. -/
def PeriodLang (cs : List Char) : Prop :=
  ∃ parts, WFParts parts ∧ cs = renderParts parts

/-- The language of `regexpWeek`. -/
def WeekLang (cs : List Char) : Prop :=
  ∃ ds, DigitStr ds ∧ cs = 'P' :: (ds ++ ['W'])

/-- parseComp makes no progress on this input. -/
def NoLead (u : Char) (cs : List Char) : Prop := parseComp u cs = (none, cs)

theorem noLead_nil (u : Char) : NoLead u [] := rfl

theorem noLead_head (u c : Char) (rest : List Char) (hc : ¬ c.isDigit = true) :
    NoLead u (c :: rest) := parseComp_skip_head u c rest hc

theorem noLead_optComp (u u' : Char) (p : Option (List Char)) (rest : List Char)
    (hwf : WFopt p) (hne : u' ≠ u) (hu' : ¬ u'.isDigit = true)
    (hrest : NoLead u rest) : NoLead u (optComp u' p ++ rest) := by
  cases p with
  | none => simpa [optComp] using hrest
  | some ds =>
    have hd := hwf ds rfl
    have : optComp u' (some ds) ++ rest = ds ++ u' :: rest := by
      simp [optComp]
    rw [NoLead, this]
    exact parseComp_skip_other u u' ds rest hd.2 hu' hne

theorem noLead_tpartRender (u : Char)
    (t : Option (Option (List Char) × Option (List Char) × Option (List Char))) :
    NoLead u (tpartRender t) := by
  cases t with
  | none => exact noLead_nil u
  | some t => exact noLead_head u 'T' _ (by decide)

/-- The general pattern accepts every rendered decomposition and recovers
exactly its submatches: maximal-munch digit runs agree with the rendered
runs because every unit letter is a non-digit. -/
theorem matchPeriod_render (parts : PParts) (hwf : WFParts parts) :
    matchPeriod (renderParts parts) = some parts := by
  obtain ⟨py, pmo, pd, pt⟩ := parts
  obtain ⟨w1, w2, w3, w4⟩ := hwf
  have e1 : parseComp 'Y' (partsBody ⟨py, pmo, pd, pt⟩) =
      (py, optComp 'M' pmo ++ (optComp 'D' pd ++ tpartRender pt)) := by
    simp only [partsBody, List.append_assoc]
    cases py with
    | none =>
      simp only [optComp, List.nil_append]
      exact noLead_optComp 'Y' 'M' pmo _ w2 (by decide) (by decide)
        (noLead_optComp 'Y' 'D' pd _ w3 (by decide) (by decide)
          (noLead_tpartRender 'Y' pt))
    | some ds =>
      have : optComp 'Y' (some ds) ++
          (optComp 'M' pmo ++ (optComp 'D' pd ++ tpartRender pt)) =
          ds ++ 'Y' :: (optComp 'M' pmo ++ (optComp 'D' pd ++ tpartRender pt)) := by
        simp [optComp]
      rw [this]
      exact parseComp_consume 'Y' ds _ (w1 ds rfl) (by decide)
  have e2 : parseComp 'M' (optComp 'M' pmo ++ (optComp 'D' pd ++ tpartRender pt)) =
      (pmo, optComp 'D' pd ++ tpartRender pt) := by
    cases pmo with
    | none =>
      simp only [optComp, List.nil_append]
      exact noLead_optComp 'M' 'D' pd _ w3 (by decide) (by decide)
        (noLead_tpartRender 'M' pt)
    | some ds =>
      have : optComp 'M' (some ds) ++ (optComp 'D' pd ++ tpartRender pt) =
          ds ++ 'M' :: (optComp 'D' pd ++ tpartRender pt) := by
        simp [optComp]
      rw [this]
      exact parseComp_consume 'M' ds _ (w2 ds rfl) (by decide)
  have e3 : parseComp 'D' (optComp 'D' pd ++ tpartRender pt) =
      (pd, tpartRender pt) := by
    cases pd with
    | none =>
      simp only [optComp, List.nil_append]
      exact noLead_tpartRender 'D' pt
    | some ds =>
      have : optComp 'D' (some ds) ++ tpartRender pt =
          ds ++ 'D' :: tpartRender pt := by
        simp [optComp]
      rw [this]
      exact parseComp_consume 'D' ds _ (w3 ds rfl) (by decide)
  simp only [renderParts, matchPeriod, e1, e2, e3]
  cases pt with
  | none => simp [tpartRender]
  | some t =>
    obtain ⟨ph, pmi, ps⟩ := t
    obtain ⟨v1, v2, v3⟩ := w4 (ph, pmi, ps) rfl
    have f1 : parseComp 'H' (optComp 'H' ph ++ (optComp 'M' pmi ++ optComp 'S' ps)) =
        (ph, optComp 'M' pmi ++ optComp 'S' ps) := by
      cases ph with
      | none =>
        simp only [optComp, List.nil_append]
        exact noLead_optComp 'H' 'M' pmi _ v2 (by decide) (by decide)
          (by simpa using
            noLead_optComp 'H' 'S' ps [] v3 (by decide) (by decide) (noLead_nil 'H'))
      | some ds =>
        have : optComp 'H' (some ds) ++ (optComp 'M' pmi ++ optComp 'S' ps) =
            ds ++ 'H' :: (optComp 'M' pmi ++ optComp 'S' ps) := by
          simp [optComp]
        rw [this]
        exact parseComp_consume 'H' ds _ (v1 ds rfl) (by decide)
    have f2 : parseComp 'M' (optComp 'M' pmi ++ optComp 'S' ps) =
        (pmi, optComp 'S' ps) := by
      cases pmi with
      | none =>
        simp only [optComp, List.nil_append]
        have := noLead_optComp 'M' 'S' ps [] v3 (by decide) (by decide) (noLead_nil 'M')
        simpa using this
      | some ds =>
        have : optComp 'M' (some ds) ++ optComp 'S' ps =
            ds ++ 'M' :: optComp 'S' ps := by
          simp [optComp]
        rw [this]
        exact parseComp_consume 'M' ds _ (v2 ds rfl) (by decide)
    have f3 : parseComp 'S' (optComp 'S' ps) = (ps, []) := by
      cases ps with
      | none => exact noLead_nil 'S'
      | some ds =>
        have : optComp 'S' (some ds) = ds ++ 'S' :: [] := by simp [optComp]
        rw [this]
        exact parseComp_consume 'S' ds [] (v3 ds rfl) (by decide)
    simp only [tpartRender, List.append_assoc, f1, f2, f3]

/-- The week pattern accepts every rendered week string. -/
theorem matchWeek_render (ds : List Char) (hds : DigitStr ds) :
    matchWeek ('P' :: (ds ++ ['W'])) = some ds := by
  have h := parseComp_consume 'W' ds [] hds (by decide)
  simp only [matchWeek]
  rw [show ds ++ ['W'] = ds ++ 'W' :: [] from rfl, h]

/-- Soundness of the week pattern. -/
theorem matchWeek_some (cs run : List Char) (h : matchWeek cs = some run) :
    DigitStr run ∧ cs = 'P' :: (run ++ ['W']) := by
  unfold matchWeek at h
  split at h
  case h_2 => exact absurd h (by simp)
  case h_1 c rest =>
    rcases parseComp_spec 'W' rest with ⟨run', rest', hp, hd, heq⟩ | hp <;>
      rw [hp] at h
    · rcases rest' with _ | _
      · simp only [Option.some.injEq] at h
        subst h
        subst heq
        exact ⟨hd, rfl⟩
      · exact absurd h (by simp)
    · exact absurd h (by simp)

/-- Combined form of `parseComp_spec`: whatever happens, the result's
optional run is well formed and renders back onto the input's front. -/
theorem parseComp_split (u : Char) (cs : List Char) :
    WFopt (parseComp u cs).1 ∧
      cs = optComp u (parseComp u cs).1 ++ (parseComp u cs).2 := by
  rcases parseComp_spec u cs with ⟨run, rest, hp, hd, heq⟩ | hp <;> rw [hp]
  · constructor
    · intro ds hds
      simp only [Option.some.injEq] at hds
      subst hds
      exact hd
    · simp [optComp, heq]
  · exact ⟨fun ds hds => by simp at hds, by simp [optComp]⟩

/-- Soundness of the general pattern: a successful match decomposes the
input into well-formed rendered submatches. -/
theorem matchPeriod_some (cs : List Char) (parts : PParts)
    (h : matchPeriod cs = some parts) : WFParts parts ∧ cs = renderParts parts := by
  unfold matchPeriod at h
  split at h
  case h_2 => exact absurd h (by simp)
  case h_1 c rest =>
    dsimp only at h
    have q1 := parseComp_split 'Y' rest
    rcases hY : parseComp 'Y' rest with ⟨A, R1⟩
    rw [hY] at h q1
    dsimp only at h q1
    have q2 := parseComp_split 'M' R1
    rcases hM : parseComp 'M' R1 with ⟨B, R2⟩
    rw [hM] at h q2
    dsimp only at h q2
    have q3 := parseComp_split 'D' R2
    rcases hD : parseComp 'D' R2 with ⟨C, R3⟩
    rw [hD] at h q3
    dsimp only at h q3
    split at h
    case h_1 =>
      simp only [Option.some.injEq] at h
      subst h
      refine ⟨⟨q1.1, q2.1, q3.1, by intro t ht; simp at ht⟩, ?_⟩
      simp only [renderParts, partsBody, tpartRender, List.append_nil,
        q1.2, q2.2, q3.2, List.append_assoc]
    case h_2 rest2 =>
      have q4 := parseComp_split 'H' rest2
      rcases hH : parseComp 'H' rest2 with ⟨E, R4⟩
      rw [hH] at h q4
      dsimp only at h q4
      have q5 := parseComp_split 'M' R4
      rcases hMi : parseComp 'M' R4 with ⟨F, R5⟩
      rw [hMi] at h q5
      dsimp only at h q5
      have q6 := parseComp_split 'S' R5
      rcases hS : parseComp 'S' R5 with ⟨G, R6⟩
      rw [hS] at h q6
      dsimp only at h q6
      split at h
      case h_1 =>
        simp only [Option.some.injEq] at h
        subst h
        refine ⟨⟨q1.1, q2.1, q3.1, ?_⟩, ?_⟩
        · intro t ht
          simp only [Option.some.injEq] at ht
          subst ht
          exact ⟨q4.1, q5.1, q6.1⟩
        · simp only [renderParts, partsBody, tpartRender, List.append_nil,
            q1.2, q2.2, q3.2, q4.2, q5.2, q6.2, List.append_assoc]
      case h_2 => exact absurd h (by simp)
    case h_3 => exact absurd h (by simp)

theorem atoi_ne_badFormat (ds : List Char) : atoi ds ≠ .error .badFormat := by
  unfold atoi
  split <;> simp

theorem optAtoi_ne_badFormat (p : Option (List Char)) :
    optAtoi p ≠ .error .badFormat := by
  cases p with
  | none => simp [optAtoi]
  | some ds => exact atoi_ne_badFormat ds

/-- The week matcher rejects every well-formed general-pattern render: no
unit letter of the body is W. -/
theorem matchWeek_renderParts (parts : PParts) (hwf : WFParts parts) :
    matchWeek (renderParts parts) = none := by
  obtain ⟨w1, w2, w3, w4⟩ := hwf
  have hbody : partsBody parts = optComp 'Y' parts.py ++ (optComp 'M' parts.pmo ++
      (optComp 'D' parts.pd ++ tpartRender parts.pt)) := by
    simp [partsBody, List.append_assoc]
  have hnl : NoLead 'W' (optComp 'Y' parts.py ++ (optComp 'M' parts.pmo ++
      (optComp 'D' parts.pd ++ tpartRender parts.pt))) := by
    refine noLead_optComp 'W' 'Y' parts.py _ w1 (by decide) (by decide) ?_
    refine noLead_optComp 'W' 'M' parts.pmo _ w2 (by decide) (by decide) ?_
    refine noLead_optComp 'W' 'D' parts.pd _ w3 (by decide) (by decide) ?_
    exact noLead_tpartRender 'W' parts.pt
  simp only [NoLead] at hnl
  simp only [renderParts, matchWeek, hbody, hnl]


/-- A BadFormat failure can only come from the no-match branch: the Atoi
conversions never produce that error. -/
theorem fromString_badFormat_elim (cs : List Char)
    (h : FromString cs = .error .badFormat) :
    matchWeek cs = none ∧ matchPeriod cs = none := by
  unfold FromString at h
  split at h
  next run heq =>
    exfalso
    split at h
    next e2 heq2 =>
      simp only [Except.error.injEq] at h
      exact atoi_ne_badFormat _ (h ▸ heq2)
    next => exact absurd h (by simp)
  next heq =>
    refine ⟨heq, ?_⟩
    split at h
    next heq2 => exact heq2
    next parts heq2 =>
      exfalso
      split at h
      next e k =>
        simp only [Except.error.injEq] at h
        exact optAtoi_ne_badFormat _ (h ▸ k)
      next y k =>
        split at h
        next e k =>
          simp only [Except.error.injEq] at h
          exact optAtoi_ne_badFormat _ (h ▸ k)
        next mo k =>
          split at h
          next e k =>
            simp only [Except.error.injEq] at h
            exact optAtoi_ne_badFormat _ (h ▸ k)
          next d k =>
            split at h
            next e k =>
              simp only [Except.error.injEq] at h
              exact optAtoi_ne_badFormat _ (h ▸ k)
            next hh k =>
              split at h
              next e k =>
                simp only [Except.error.injEq] at h
                exact optAtoi_ne_badFormat _ (h ▸ k)
              next mi k =>
                split at h
                next e k =>
                  simp only [Except.error.injEq] at h
                  exact optAtoi_ne_badFormat _ (h ▸ k)
                next ss k => exact absurd h (by simp)

/-- C5 (amended).  FromString fails with the BadFormat error exactly when
the input matches neither the general P-pattern language nor the week
language; an out-of-range numeral in a matched component yields the
distinct Atoi range error instead, surfaced unchanged, and no partial
Period is ever returned.  The spec's four concrete examples hold. -/
theorem fromString_spec (cs : List Char) :
    (FromString cs = .error .badFormat ↔ ¬(WeekLang cs ∨ PeriodLang cs)) ∧
      FromString ['P', 'T', '1', 'S'] = .ok ⟨0, 0, 0, 0, 0, 0, 1⟩ ∧
      FromString ['P', '7', 'W'] = .ok ⟨0, 0, 7, 0, 0, 0, 0⟩ ∧
      FromString ['D', 'T', '1', 'S'] = .error .badFormat ∧
      FromString ['P', '1', 'S'] = .error .badFormat := by
  refine ⟨⟨?_, ?_⟩, by rfl, by rfl, by rfl, by rfl⟩
  · intro h
    obtain ⟨hwn, hpn⟩ := fromString_badFormat_elim cs h
    rintro (⟨ds, hds, rfl⟩ | ⟨parts, hwf, rfl⟩)
    · rw [matchWeek_render ds hds] at hwn
      exact absurd hwn (by simp)
    · rw [matchPeriod_render parts hwf] at hpn
      exact absurd hpn (by simp)
  · intro hnot
    have hw : matchWeek cs = none := by
      rcases hmw : matchWeek cs with _ | run
      · rfl
      · obtain ⟨hd, he⟩ := matchWeek_some cs run hmw
        exact absurd (Or.inl ⟨run, hd, he⟩) hnot
    have hp : matchPeriod cs = none := by
      rcases hmp : matchPeriod cs with _ | parts
      · rfl
      · obtain ⟨hwf, he⟩ := matchPeriod_some cs parts hmp
        exact absurd (Or.inr ⟨parts, hwf, he⟩) hnot
    unfold FromString
    rw [hw, hp]

/-- C5 counterexample.  On an input that matches the general pattern but
whose numeral exceeds the 64-bit int maximum, the matched numeric
component fails to parse and FromString fails with the Atoi range error,
not with BadFormat. -/
theorem fromString_range_counterexample :
    FromString ['P', '9', '2', '2', '3', '3', '7', '2', '0', '3', '6', '8',
        '5', '4', '7', '7', '5', '8', '0', '8', 'Y'] = .error .rangeErr ∧
      (Except.error .rangeErr : Except PErr Period) ≠ .error .badFormat := by
  refine ⟨by rfl, fun hcon => ?_⟩
  simp at hcon


/-- Period.String (src/period.go lines 13, 33-42): the template renders
`P`, then each of Years/Months/Weeks/Days when non-zero as decimal digits
plus the unit letter, then `T` when HasTimePart, then Hours/Minutes/
Seconds likewise. -/
def Period.render (p : Period) : List Char :=
  'P' :: ((if p.Years ≠ 0 then intChars p.Years ++ ['Y'] else []) ++
    ((if p.Months ≠ 0 then intChars p.Months ++ ['M'] else []) ++
      ((if p.Weeks ≠ 0 then intChars p.Weeks ++ ['W'] else []) ++
        ((if p.Days ≠ 0 then intChars p.Days ++ ['D'] else []) ++
          ((if p.HasTimePart then ['T'] else []) ++
            ((if p.Hours ≠ 0 then intChars p.Hours ++ ['H'] else []) ++
              ((if p.Minutes ≠ 0 then intChars p.Minutes ++ ['M'] else []) ++
                (if p.Seconds ≠ 0 then intChars p.Seconds ++ ['S'] else []))))))))

/-- Submatch a non-negative field would produce: absent when zero. -/
def optRun (n : Int) : Option (List Char) :=
  if n = 0 then none else some (natChars n.toNat)

/-- The submatches of a rendered weekless Period. -/
def partsOf (p : Period) : PParts :=
  ⟨optRun p.Years, optRun p.Months, optRun p.Days,
    if p.HasTimePart then some (optRun p.Hours, optRun p.Minutes, optRun p.Seconds)
    else none⟩

theorem digitStr_natChars (m : Nat) : DigitStr (natChars m) :=
  ⟨natChars_ne_nil m, natChars_digits m⟩

theorem wfopt_optRun (n : Int) : WFopt (optRun n) := by
  intro ds hds
  unfold optRun at hds
  split at hds
  · simp at hds
  · simp only [Option.some.injEq] at hds
    subst hds
    exact digitStr_natChars _

theorem partsOf_wf (p : Period) : WFParts (partsOf p) := by
  refine ⟨wfopt_optRun _, wfopt_optRun _, wfopt_optRun _, ?_⟩
  intro t ht
  simp only [partsOf] at ht
  split at ht
  · simp only [Option.some.injEq] at ht
    subst ht
    exact ⟨wfopt_optRun _, wfopt_optRun _, wfopt_optRun _⟩
  · simp at ht

theorem optComp_optRun (u : Char) (n : Int) (h : 0 ≤ n) :
    optComp u (optRun n) = if n ≠ 0 then intChars n ++ [u] else [] := by
  by_cases hz : n = 0
  · simp [optRun, optComp, hz]
  · simp [optRun, optComp, hz, intChars, not_lt.mpr h]

theorem hasTimePart_false (p : Period) (h : ¬ p.HasTimePart = true) :
    p.Hours = 0 ∧ p.Minutes = 0 ∧ p.Seconds = 0 := by
  simp only [Period.HasTimePart, Bool.or_eq_true, decide_eq_true_eq, not_or] at h
  omega

theorem render_eq (p : Period) (hw : p.Weeks = 0)
    (hY : 0 ≤ p.Years) (hMo : 0 ≤ p.Months) (hD : 0 ≤ p.Days)
    (hH : 0 ≤ p.Hours) (hMi : 0 ≤ p.Minutes) (hS : 0 ≤ p.Seconds) :
    p.render = renderParts (partsOf p) := by
  by_cases ht : p.HasTimePart = true
  · simp only [Period.render, renderParts, partsBody, partsOf, tpartRender,
      if_pos ht, hw, optComp_optRun 'Y' _ hY, optComp_optRun 'M' _ hMo,
      optComp_optRun 'D' _ hD, optComp_optRun 'H' _ hH,
      optComp_optRun 'M' _ hMi, optComp_optRun 'S' _ hS]
    simp [List.append_assoc]
  · obtain ⟨h1, h2, h3⟩ := hasTimePart_false p ht
    simp only [Period.render, renderParts, partsBody, partsOf, tpartRender,
      if_neg ht, hw, h1, h2, h3, optComp_optRun 'Y' _ hY,
      optComp_optRun 'M' _ hMo, optComp_optRun 'D' _ hD]
    simp [List.append_assoc]

theorem optAtoi_optRun (n : Int) (h0 : 0 ≤ n) (h1 : n ≤ maxInt) :
    optAtoi (optRun n) = .ok n := by
  by_cases hz : n = 0
  · simp [optRun, optAtoi, hz]
  · simp only [optRun, if_neg hz, optAtoi, atoi, digitsVal_natChars]
    rw [Int.toNat_of_nonneg h0, if_pos h1]

/-- C8 (amended).  For a Period with non-negative, int-range fields and no
week-exclusivity conflict, parsing the rendered text gives back exactly
the same Period (hence it equals Normalize(p) precisely when p is already
normalized). -/
theorem fromString_render (p : Period)
    (hY : 0 ≤ p.Years) (hMo : 0 ≤ p.Months) (hW : 0 ≤ p.Weeks) (hD : 0 ≤ p.Days)
    (hH : 0 ≤ p.Hours) (hMi : 0 ≤ p.Minutes) (hS : 0 ≤ p.Seconds)
    (bY : p.Years ≤ maxInt) (bMo : p.Months ≤ maxInt) (bW : p.Weeks ≤ maxInt)
    (bD : p.Days ≤ maxInt) (bH : p.Hours ≤ maxInt) (bMi : p.Minutes ≤ maxInt)
    (bS : p.Seconds ≤ maxInt)
    (hconf : p.Weeks = 0 ∨ (p.Years = 0 ∧ p.Months = 0 ∧ p.Days = 0 ∧
      p.Hours = 0 ∧ p.Minutes = 0 ∧ p.Seconds = 0)) :
    FromString p.render = .ok p := by
  obtain ⟨vY, vMo, vW, vD, vH, vMi, vS⟩ := p
  simp only at hY hMo hW hD hH hMi hS bY bMo bW bD bH bMi bS hconf
  by_cases hw : vW = 0
  · subst hw
    rw [render_eq _ rfl hY hMo hD hH hMi hS]
    have hwf := partsOf_wf ⟨vY, vMo, 0, vD, vH, vMi, vS⟩
    unfold FromString
    rw [matchWeek_renderParts _ hwf, matchPeriod_render _ hwf]
    have a1 := optAtoi_optRun vY hY bY
    have a2 := optAtoi_optRun vMo hMo bMo
    have a3 := optAtoi_optRun vD hD bD
    have a4 := optAtoi_optRun vH hH bH
    have a5 := optAtoi_optRun vMi hMi bMi
    have a6 := optAtoi_optRun vS hS bS
    have an : optAtoi (none : Option (List Char)) = .ok 0 := rfl
    by_cases ht : Period.HasTimePart ⟨vY, vMo, 0, vD, vH, vMi, vS⟩ = true
    · simp only [partsOf, if_pos ht, a1, a2, a3, a4, a5, a6]
    · obtain ⟨h1, h2, h3⟩ := hasTimePart_false _ ht
      simp only at h1 h2 h3
      subst h1
      subst h2
      subst h3
      simp only [partsOf, if_neg ht, a1, a2, a3, an]
  · rcases hconf with hconf | ⟨z1, z2, z3, z4, z5, z6⟩
    · exact absurd hconf hw
    subst z1
    subst z2
    subst z3
    subst z4
    subst z5
    subst z6
    have hnt : ¬ Period.HasTimePart ⟨0, 0, vW, 0, 0, 0, 0⟩ = true := by
      simp [Period.HasTimePart]
    have hr : Period.render ⟨0, 0, vW, 0, 0, 0, 0⟩ =
        'P' :: (natChars vW.toNat ++ ['W']) := by
      simp only [Period.render, if_neg hnt]
      simp [intChars, not_lt.mpr hW, hw]
    rw [hr]
    unfold FromString
    rw [matchWeek_render _ (digitStr_natChars _)]
    simp only [atoi, digitsVal_natChars]
    rw [Int.toNat_of_nonneg hW, if_pos bW]

/-- C8 counterexample.  The template renders the raw fields, so round
tripping an unnormalized Period returns it unchanged, not normalized:
for {Seconds: 91} the parse result differs from Normalize. -/
theorem fromString_render_counterexample :
    FromString (Period.render ⟨0, 0, 0, 0, 0, 0, 91⟩) = .ok ⟨0, 0, 0, 0, 0, 0, 91⟩ ∧
      Period.Normalize ⟨0, 0, 0, 0, 0, 0, 91⟩ = ⟨0, 0, 0, 0, 0, 1, 31⟩ ∧
      (Except.ok (⟨0, 0, 0, 0, 0, 0, 91⟩ : Period) : Except PErr Period) ≠
        .ok ⟨0, 0, 0, 0, 0, 1, 31⟩ := by
  have e1 : natChars 9 = ['9'] := by rw [natChars]; norm_num [digitChar]
  have e3 : natChars 91 = ['9', '1'] := by
    rw [natChars]
    norm_num [e1, digitChar]
  have e4 : Int.toNat 91 = 91 := rfl
  have hr : Period.render ⟨0, 0, 0, 0, 0, 0, 91⟩ = ['P', 'T', '9', '1', 'S'] := by
    norm_num [Period.render, Period.HasTimePart, intChars, e4, e3]
  refine ⟨by rw [hr]; rfl, by rfl, fun hcon => ?_⟩
  simp only [Except.ok.injEq, Period.mk.injEq] at hcon
  omega

/-- C8 witness: the round trip instantiated at a concrete Period with all
seven kinds of fields. -/
theorem fromString_render_witness :
    FromString (Period.render ⟨6, 5, 0, 4, 3, 2, 1⟩) = .ok ⟨6, 5, 0, 4, 3, 2, 1⟩ :=
  fromString_render ⟨6, 5, 0, 4, 3, 2, 1⟩ (by norm_num) (by norm_num) (by norm_num)
    (by norm_num) (by norm_num) (by norm_num) (by norm_num)
    (by norm_num [maxInt]) (by norm_num [maxInt]) (by norm_num [maxInt])
    (by norm_num [maxInt]) (by norm_num [maxInt]) (by norm_num [maxInt])
    (by norm_num [maxInt]) (Or.inl rfl)
